import Mathlib

/-!
A verification development for the `lua-aho-corasick` multi-pattern
string-matching library.

The repository ships the headers and the foreign-interface layer
(`ac.h`, `ac_util.hpp`, `ac_slow.hpp`, `ac.cxx`, `ac_test.cxx`); the bodies of
`ACS_Constructor::Construct`, `ACS_Constructor::Match`,
`ACS_Constructor::Propagate_faillink` and the packed converter (`ac_fast.*`)
are not part of the shipped sources.  Definitions below that embed those
missing bodies are modelled from the specification and are marked
`Modelled from the spec:` in their doc comments; everything else is a direct
shallow embedding of code that is present in the sources.

Bytes are modelled as natural numbers, byte strings as `List Nat`, and a
dictionary as an ordered list of byte strings (the alphabet is opaque to all
the algorithms involved, so the 0..255 bound is never needed by a theorem;
where C code computes with `int`, the embedding uses `Int`).
-/

namespace AhoCorasick

/-- A byte string: the patterns and the inputs of the matcher. -/
abbrev Str := List Nat

/-- Modelled from the spec: the states of the reference automaton are the
nodes of the trie built from the pattern set, i.e. the root (the empty
string) together with every nonempty prefix of a dictionary pattern
(spec section 4.1 step 2).  `isNode D p` decides whether the byte string `p`
is such a state. -/
def isNode (D : List Str) (p : Str) : Bool :=
  p.isEmpty || D.any (fun pat => decide (p <+: pat))

/-- Modelled from the spec: the longest suffix of `t` that is a state of the
trie.  This is the helper through which the failure link and the matcher's
state invariant are expressed; the spec's glossary defines the failure link
as "the longest proper suffix of the current matched prefix that is itself a
prefix of some pattern". -/
def longestNodeSuffix (D : List Str) : Str → Str
  | [] => []
  | b :: t => if isNode D (b :: t) then b :: t else longestNodeSuffix D t

/-- Modelled from the spec: the failure link of state `p` — the longest
proper suffix of `p` that is a state (root for the root itself and for
depth-1 states, matching "failure link ... root for depth ≤ 1"). -/
def fail (D : List Str) (p : Str) : Str :=
  longestNodeSuffix D p.tail

/-- Modelled from the spec: the goto map of state `p` — the transition on
byte `b` exists exactly when `p ++ [b]` is again a trie node, and then leads
to that node (spec section 4.1 step 2). -/
def gotoFn (D : List Str) (p : Str) (b : Nat) : Option Str :=
  if isNode D (p ++ [b]) then some (p ++ [b]) else none

/-- Modelled from the spec: a state is terminal iff some dictionary pattern
ends there or a state on its failure chain is terminal; unfolding the
propagation of section 4.1 step 3, a state `q` is terminal exactly when some
pattern of `D` is a suffix of `q`. -/
def terminal (D : List Str) (q : Str) : Bool :=
  D.any (fun pat => decide (pat <:+ q))

/-- Modelled from the spec: one round of the matcher's inner loop on byte
`b` (section 4.3 steps 1-3), written with explicit fuel so that the
recursion along failure links (which strictly shortens the state) is
structural.  If the goto on `b` exists it is taken; otherwise the failure
link is followed and the same byte is retried, bottoming out at the root. -/
def stepFuel (D : List Str) (b : Nat) : Nat → Str → Str
  | 0, p =>
    match gotoFn D p b with
    | some q => q
    | none => []
  | n + 1, p =>
    match gotoFn D p b with
    | some q => q
    | none => if p.isEmpty then [] else stepFuel D b n (fail D p)

/-- Modelled from the spec: the matcher's transition on one input byte,
starting the failure-following loop with enough fuel (`p.length` strictly
bounds the failure chain below `p`). -/
def step (D : List Str) (p : Str) (b : Nat) : Str :=
  stepFuel D b p.length p

/-- The match result of the reference matcher, mirroring `Match_Result` of
`ac_slow.hpp` (fields `begin`/`end` there; `end` is reserved in Lean, so the
embedding uses the field names of the C `ac_result_t`). -/
structure Match_Result where
  match_begin : Int
  match_end : Int
deriving DecidableEq, Repr

/-- Modelled from the spec: the scanning loop of `match` (section 4.3).
`p` is the current state, the next input byte is matched with `step`, and on
reaching a terminal state the span `(i + 1 - depth, i)` is returned, where
the depth of the reached state is its length ("start = end −
depth(terminal_state) + 1"). -/
def matchFrom (D : List Str) : Str → Str → Nat → Option (Nat × Nat)
  | _, [], _ => none
  | p, b :: rest, i =>
    let q := step D p b
    if terminal D q then some (i + 1 - q.length, i)
    else matchFrom D q rest (i + 1)

/-- Modelled from the spec: `ACS_Constructor::Match(str, len)` — scan the
input from the root state and return the first match, or the sentinel
`(-1, -1)` when no byte of the input puts the automaton in a terminal
state. -/
def Match (D : List Str) (s : Str) : Match_Result :=
  match matchFrom D [] s 0 with
  | some (b, e) => ⟨(b : Int), (e : Int)⟩
  | none => ⟨-1, -1⟩

/-- The automaton produced by a successful build.  In the embedding the
reference automaton is fully determined by the pattern dictionary, so the
structure records exactly that. -/
structure Automaton where
  patterns : List Str
deriving DecidableEq

/-- The error kinds surfaced by `build`, from spec section 7. -/
inductive BuildError where
  | InvalidPattern
  | OutOfMemory
  | Overflow
deriving DecidableEq, Repr

/-- Modelled from the spec: `build(patterns)` — the all-or-nothing
construction entry point.  An empty pattern string is rejected with
`InvalidPattern` and no automaton is produced (spec sections 4.1 and 7);
otherwise the reference automaton over the dictionary is returned. -/
def build (D : List Str) : Except BuildError Automaton :=
  if D.any List.isEmpty then .error .InvalidPattern else .ok ⟨D⟩

/-- Modelled from the spec: `match(automaton, input)` applied to a built
automaton. -/
def acMatch (a : Automaton) (s : Str) : Match_Result :=
  Match a.patterns s

/-- A pattern occurrence: `occursAt D s b e` states that the inclusive span
`s[b..e]` equals some pattern of `D`. -/
def occursAt (D : List Str) (s : Str) (b e : Nat) : Prop :=
  e < s.length ∧ b ≤ e ∧ (s.drop b).take (e + 1 - b) ∈ D

instance (D : List Str) (s : Str) (b e : Nat) : Decidable (occursAt D s b e) :=
  inferInstanceAs (Decidable (e < s.length ∧ b ≤ e ∧ (s.drop b).take (e + 1 - b) ∈ D))

end AhoCorasick

namespace AhoCorasick

/-! Basic facts about list suffixes, stated over `Str` for the development. -/

theorem sfx_nil (l : Str) : [] <:+ l :=
  ⟨l, by simp⟩

theorem sfx_tail (b : Nat) (t : Str) : t <:+ b :: t :=
  ⟨[b], rfl⟩

theorem sfx_append_right {l m : Str} (x : Str) (h : l <:+ m) : l ++ x <:+ m ++ x := by
  obtain ⟨u, rfl⟩ := h
  exact ⟨u, by simp⟩

theorem sfx_cons_cases {q : Str} {b : Nat} {t : Str} (h : q <:+ b :: t) :
    q = b :: t ∨ q <:+ t := by
  obtain ⟨u, hu⟩ := h
  cases u with
  | nil => exact Or.inl (by simpa using hu)
  | cons c u' =>
    right
    refine ⟨u', ?_⟩
    have := (List.cons.injEq c (u' ++ q) b t).mp hu
    exact this.2

theorem sfx_antisymm {l m : Str} (h₁ : l <:+ m) (h₂ : m <:+ l) : l = m := by
  obtain ⟨u, hu⟩ := h₁
  obtain ⟨v, hv⟩ := h₂
  have hlen : u.length + l.length = m.length := by
    simpa [List.length_append] using congrArg List.length hu
  have hlen' : v.length + m.length = l.length := by
    simpa [List.length_append] using congrArg List.length hv
  have : u.length = 0 := by omega
  have hu0 : u = [] := List.eq_nil_of_length_eq_zero this
  simpa [hu0] using hu

theorem sfx_concat_cases {q p : Str} {b : Nat} (h : q <:+ p ++ [b]) :
    q = [] ∨ ∃ q', q = q' ++ [b] ∧ q' <:+ p := by
  rcases List.eq_nil_or_concat q with rfl | ⟨q', x, rfl⟩
  · exact Or.inl rfl
  · right
    obtain ⟨u, hu⟩ := h
    rw [List.concat_eq_append, ← List.append_assoc] at hu
    have := List.append_inj' hu (by simp)
    refine ⟨q', ?_, ⟨u, this.1⟩⟩
    rw [List.concat_eq_append, this.2]

theorem drop_of_sfx {q t : Str} (h : q <:+ t) : t.drop (t.length - q.length) = q := by
  obtain ⟨u, rfl⟩ := h
  simp [List.length_append]

/-! Facts about trie nodes and the longest node suffix. -/

theorem isNode_iff {D : List Str} {p : Str} :
    isNode D p = true ↔ p = [] ∨ ∃ pat ∈ D, p <+: pat := by
  simp [isNode, List.any_eq_true, List.isEmpty_iff]

theorem isNode_nil (D : List Str) : isNode D [] = true := by
  simp [isNode]

theorem isNode_of_mem {D : List Str} {pat : Str} (h : pat ∈ D) : isNode D pat = true :=
  isNode_iff.mpr (Or.inr ⟨pat, h, ⟨[], List.append_nil pat⟩⟩)

theorem isNode_of_pfx {D : List Str} {q r : Str} (hr : isNode D r = true)
    (hq : q <+: r) : isNode D q = true := by
  rcases isNode_iff.mp hr with rfl | ⟨pat, hm, hpre⟩
  · have : q = [] := by
      obtain ⟨t, ht⟩ := hq
      exact (List.append_eq_nil.mp ht).1
    simp [this, isNode_nil]
  · exact isNode_iff.mpr (Or.inr ⟨pat, hm, hq.trans hpre⟩)

theorem lns_sfx (D : List Str) : ∀ t : Str, longestNodeSuffix D t <:+ t := by
  intro t
  induction t with
  | nil => exact ⟨[], rfl⟩
  | cons b t ih =>
    by_cases h : isNode D (b :: t) = true
    · simp [longestNodeSuffix, h]
    · simp only [longestNodeSuffix, h]
      simp only [Bool.false_eq_true, if_false]
      exact ih.trans (sfx_tail b t)

theorem isNode_lns (D : List Str) : ∀ t : Str, isNode D (longestNodeSuffix D t) = true := by
  intro t
  induction t with
  | nil => exact isNode_nil D
  | cons b t ih =>
    by_cases h : isNode D (b :: t) = true
    · simp [longestNodeSuffix, h]
    · simpa [longestNodeSuffix, h]

theorem lns_eq_self {D : List Str} {t : Str} (h : isNode D t = true) :
    longestNodeSuffix D t = t := by
  cases t with
  | nil => rfl
  | cons b t => simp [longestNodeSuffix, h]

theorem sfx_lns {D : List Str} {q : Str} : ∀ {t : Str}, q <:+ t → isNode D q = true →
    q <:+ longestNodeSuffix D t := by
  intro t
  induction t with
  | nil =>
    intro hq _
    obtain ⟨u, hu⟩ := hq
    have := List.append_eq_nil.mp hu
    simp [longestNodeSuffix, this.2]
  | cons b t ih =>
    intro hq hnode
    by_cases h : isNode D (b :: t) = true
    · simpa [longestNodeSuffix, h] using hq
    · rcases sfx_cons_cases hq with rfl | hq'
      · exact absurd hnode (by simpa using h)
      · simpa [longestNodeSuffix, h] using ih hq' hnode

theorem terminal_iff {D : List Str} {q : Str} :
    terminal D q = true ↔ ∃ pat ∈ D, pat <:+ q := by
  simp [terminal, List.any_eq_true]

end AhoCorasick

namespace AhoCorasick

/-! The failure link and the key transition lemma: on a trie node, one
round of the matcher's goto/failure loop lands on the longest node suffix of
the extended string. -/

theorem fail_sfx_tail (D : List Str) (p : Str) : fail D p <:+ p.tail :=
  lns_sfx D p.tail

theorem fail_sfx (D : List Str) (p : Str) : fail D p <:+ p := by
  cases p with
  | nil => exact ⟨[], rfl⟩
  | cons b t => exact (fail_sfx_tail D (b :: t)).trans (sfx_tail b t)

theorem fail_length_lt (D : List Str) {p : Str} (hp : p ≠ []) :
    (fail D p).length < p.length := by
  have h := (fail_sfx_tail D p).length_le
  cases p with
  | nil => exact absurd rfl hp
  | cons b t => simp only [List.tail_cons] at h; simp; omega

theorem lns_append_fail {D : List Str} {p : Str} {b : Nat}
    (hp : isNode D p = true) (hnb : isNode D (p ++ [b]) = false) :
    longestNodeSuffix D (p ++ [b]) = longestNodeSuffix D (fail D p ++ [b]) := by
  cases p with
  | nil => rfl
  | cons c t =>
    set p := c :: t with hpdef
    have hBA : longestNodeSuffix D (fail D p ++ [b]) <:+ longestNodeSuffix D (p ++ [b]) := by
      have h1 : longestNodeSuffix D (fail D p ++ [b]) <:+ fail D p ++ [b] :=
        lns_sfx D (fail D p ++ [b])
      have h2 : fail D p ++ [b] <:+ p ++ [b] := sfx_append_right [b] (fail_sfx D p)
      exact sfx_lns (h1.trans h2) (isNode_lns D (fail D p ++ [b]))
    have hAB : longestNodeSuffix D (p ++ [b]) <:+ longestNodeSuffix D (fail D p ++ [b]) := by
      have hA : longestNodeSuffix D (p ++ [b]) <:+ p ++ [b] := lns_sfx D (p ++ [b])
      have hAnode : isNode D (longestNodeSuffix D (p ++ [b])) = true := isNode_lns D _
      rcases sfx_concat_cases hA with hnilA | ⟨q', hq'eq, hq'sfx⟩
      · rw [hnilA]
        exact sfx_lns (sfx_nil _) (isNode_nil D)
      · have hq'ne : q' ≠ p := by
          intro hcon
          rw [hcon] at hq'eq
          rw [hq'eq] at hAnode
          rw [hnb] at hAnode
          exact Bool.noConfusion hAnode
        have hq'node : isNode D q' = true := by
          refine isNode_of_pfx hAnode ?_
          rw [hq'eq]
          exact ⟨[b], rfl⟩
        have hq't : q' <:+ t := by
          rcases sfx_cons_cases hq'sfx with hcon | h
          · exact absurd hcon hq'ne
          · exact h
        have hq'fail : q' <:+ fail D p := sfx_lns hq't hq'node
        have : longestNodeSuffix D (p ++ [b]) <:+ fail D p ++ [b] := by
          rw [hq'eq]
          exact sfx_append_right [b] hq'fail
        exact sfx_lns this hAnode
    exact sfx_antisymm hAB hBA

theorem stepFuel_eq {D : List Str} {b : Nat} :
    ∀ n (p : Str), p.length ≤ n → isNode D p = true →
      stepFuel D b n p = longestNodeSuffix D (p ++ [b]) := by
  intro n
  induction n with
  | zero =>
    intro p hlen _
    have hp : p = [] := List.eq_nil_of_length_eq_zero (Nat.le_zero.mp hlen)
    subst hp
    by_cases h : isNode D [b] = true
    · simp [stepFuel, gotoFn, h, lns_eq_self h]
    · simp [stepFuel, gotoFn, h, longestNodeSuffix]
  | succ n ih =>
    intro p hlen hp
    by_cases h : isNode D (p ++ [b]) = true
    · simp [stepFuel, gotoFn, h, lns_eq_self h]
    · by_cases hpe : p = []
      · subst hpe
        simp only [List.nil_append] at h
        simp [stepFuel, gotoFn, h, longestNodeSuffix]
      · have hfl : (fail D p).length ≤ n := by
          have := fail_length_lt D hpe
          omega
        have : stepFuel D b (n + 1) p = stepFuel D b n (fail D p) := by
          simp [stepFuel, gotoFn, h, List.isEmpty_iff, hpe]
        rw [this, ih (fail D p) hfl (isNode_lns D p.tail),
          ← lns_append_fail hp (by simpa using h)]

theorem step_lns {D : List Str} {p : Str} (b : Nat) (hp : isNode D p = true) :
    step D p b = longestNodeSuffix D (p ++ [b]) :=
  stepFuel_eq p.length p le_rfl hp

end AhoCorasick

namespace AhoCorasick

/-! The loop invariant of the matcher: one copy of the transition lemma
without the failure detour, then the characterization of the whole scan. -/

theorem lns_append_lns (D : List Str) (t : Str) (b : Nat) :
    longestNodeSuffix D (longestNodeSuffix D t ++ [b]) =
      longestNodeSuffix D (t ++ [b]) := by
  have hBA : longestNodeSuffix D (longestNodeSuffix D t ++ [b]) <:+
      longestNodeSuffix D (t ++ [b]) := by
    have h1 := lns_sfx D (longestNodeSuffix D t ++ [b])
    have h2 : longestNodeSuffix D t ++ [b] <:+ t ++ [b] :=
      sfx_append_right [b] (lns_sfx D t)
    exact sfx_lns (h1.trans h2) (isNode_lns D _)
  have hAB : longestNodeSuffix D (t ++ [b]) <:+
      longestNodeSuffix D (longestNodeSuffix D t ++ [b]) := by
    have hA := lns_sfx D (t ++ [b])
    have hAnode : isNode D (longestNodeSuffix D (t ++ [b])) = true := isNode_lns D _
    have : longestNodeSuffix D (t ++ [b]) <:+ longestNodeSuffix D t ++ [b] := by
      rcases sfx_concat_cases hA with hnil | ⟨q', hq'eq, hq'sfx⟩
      · rw [hnil]; exact sfx_nil _
      · have hq'node : isNode D q' = true := by
          refine isNode_of_pfx hAnode ?_
          rw [hq'eq]; exact ⟨[b], rfl⟩
        rw [hq'eq]
        exact sfx_append_right [b] (sfx_lns hq'sfx hq'node)
    exact sfx_lns this hAnode
  exact sfx_antisymm hBA hAB

theorem step_lns_root {D : List Str} (t : Str) (b : Nat) :
    step D (longestNodeSuffix D t) b = longestNodeSuffix D (t ++ [b]) := by
  rw [step_lns b (isNode_lns D t), lns_append_lns]

theorem matchFrom_cases (D : List Str) :
    ∀ rest c : Str,
      (matchFrom D (longestNodeSuffix D c) rest c.length = none ∧
        ∀ j < rest.length,
          terminal D (longestNodeSuffix D (c ++ rest.take (j + 1))) = false)
      ∨ (∃ j < rest.length,
          matchFrom D (longestNodeSuffix D c) rest c.length =
            some (c.length + j + 1 -
                    (longestNodeSuffix D (c ++ rest.take (j + 1))).length,
                  c.length + j)
          ∧ terminal D (longestNodeSuffix D (c ++ rest.take (j + 1))) = true
          ∧ ∀ j' < j,
              terminal D (longestNodeSuffix D (c ++ rest.take (j' + 1))) = false) := by
  intro rest
  induction rest with
  | nil =>
    intro c
    exact Or.inl ⟨rfl, fun j hj => by simp at hj⟩
  | cons b t ih =>
    intro c
    have hstep : step D (longestNodeSuffix D c) b = longestNodeSuffix D (c ++ [b]) :=
      step_lns_root c b
    rcases Bool.eq_false_or_eq_true (terminal D (longestNodeSuffix D (c ++ [b]))) with
      hterm | hterm
    · -- terminal hit on this byte: the scan stops here
      right
      refine ⟨0, by simp, ?_, ?_, fun j' hj' => by omega⟩
      · simp [matchFrom, hstep, hterm]
      · simpa using hterm
    · -- no hit on this byte: recurse via the induction hypothesis
      have heq : matchFrom D (longestNodeSuffix D c) (b :: t) c.length =
          matchFrom D (longestNodeSuffix D (c ++ [b])) t (c ++ [b]).length := by
        simp [matchFrom, hstep, hterm]
      have happ : ∀ x : Str, (c ++ [b]) ++ x = c ++ b :: x := by
        intro x; rw [List.append_assoc]; rfl
      rcases ih (c ++ [b]) with ⟨hnone, hall⟩ | ⟨j, hj, hsome, hT, hprev⟩
      · left
        refine ⟨by rw [heq]; exact hnone, ?_⟩
        intro j hj
        match j with
        | 0 => simpa using hterm
        | j'' + 1 =>
          have hj'' : j'' < t.length := by simpa using hj
          have := hall j'' hj''
          rw [happ] at this
          simpa using this
      · right
        refine ⟨j + 1, by simpa using hj, ?_, ?_, ?_⟩
        · rw [heq, hsome]
          have h1 : (c ++ [b]).length = c.length + 1 := by simp
          rw [h1]
          have h2 : c.length + 1 + j = c.length + (j + 1) := by omega
          rw [h2]
          have h3 : (c ++ [b]) ++ t.take (j + 1) = c ++ (b :: t).take (j + 1 + 1) := by
            rw [happ]; simp
          rw [h3]
        · have h3 : (c ++ [b]) ++ t.take (j + 1) = c ++ (b :: t).take (j + 1 + 1) := by
            rw [happ]; simp
          rw [← h3]; exact hT
        · intro j' hj'
          match j' with
          | 0 => simpa using hterm
          | j'' + 1 =>
            have hj'' : j'' < j := by omega
            have := hprev j'' hj''
            rw [happ] at this
            simpa using this

theorem Match_spec (D : List Str) (s : Str) :
    (Match D s = ⟨-1, -1⟩ ∧
      ∀ j < s.length, terminal D (longestNodeSuffix D (s.take (j + 1))) = false)
    ∨ (∃ j < s.length,
        Match D s =
          ⟨((j + 1 - (longestNodeSuffix D (s.take (j + 1))).length : Nat) : Int),
           (j : Int)⟩
        ∧ terminal D (longestNodeSuffix D (s.take (j + 1))) = true
        ∧ ∀ j' < j, terminal D (longestNodeSuffix D (s.take (j' + 1))) = false) := by
  rcases matchFrom_cases D s [] with ⟨hn, hall⟩ | ⟨j, hj, hs, hT, hprev⟩
  · left
    have hn' : matchFrom D [] s 0 = none := hn
    refine ⟨by simp [Match, hn'], ?_⟩
    intro j hj
    simpa using hall j hj
  · right
    have hs' : matchFrom D [] s 0 =
        some (j + 1 - (longestNodeSuffix D (s.take (j + 1))).length, j) := by
      have := hs
      simpa using this
    refine ⟨j, hj, by simp [Match, hs'], by simpa using hT, ?_⟩
    intro j' hj'
    simpa using hprev j' hj'

end AhoCorasick

namespace AhoCorasick

/-! Bridges between terminal states of the automaton and pattern
occurrences in the input string. -/

theorem terminal_lns_iff (D : List Str) (t : Str) :
    terminal D (longestNodeSuffix D t) = true ↔ ∃ pat ∈ D, pat <:+ t := by
  rw [terminal_iff]
  constructor
  · rintro ⟨pat, hm, hsfx⟩
    exact ⟨pat, hm, hsfx.trans (lns_sfx D t)⟩
  · rintro ⟨pat, hm, hsfx⟩
    exact ⟨pat, hm, sfx_lns hsfx (isNode_of_mem hm)⟩

theorem sfx_take_of_occ {pat s : Str} (hne : pat ≠ []) (h : pat <:+: s) :
    ∃ j < s.length, pat <:+ s.take (j + 1) := by
  obtain ⟨u, v, huv⟩ := h
  have hplen : 0 < pat.length := List.length_pos.mpr hne
  refine ⟨u.length + pat.length - 1, ?_, ?_⟩
  · have : u.length + pat.length ≤ s.length := by
      rw [← huv]; simp [List.length_append]
    omega
  · have hidx : u.length + pat.length - 1 + 1 = u.length + pat.length := by omega
    rw [hidx, ← huv]
    have hlen : u.length + pat.length = (u ++ pat).length := by simp
    rw [hlen, List.take_left]
    exact ⟨u, rfl⟩

theorem occ_of_sfx_take {pat s : Str} {j : Nat} (h : pat <:+ s.take (j + 1)) :
    pat <:+: s := by
  obtain ⟨u, hu⟩ := h
  refine ⟨u, s.drop (j + 1), ?_⟩
  rw [hu, List.take_append_drop]

theorem lns_length_le (D : List Str) (t : Str) :
    (longestNodeSuffix D t).length ≤ t.length :=
  (lns_sfx D t).length_le

theorem span_eq_lns {D : List Str} {s : Str} {j : Nat} (hj : j < s.length) :
    (s.drop (j + 1 - (longestNodeSuffix D (s.take (j + 1))).length)).take
        (j + 1 - (j + 1 - (longestNodeSuffix D (s.take (j + 1))).length)) =
      longestNodeSuffix D (s.take (j + 1)) := by
  set d := (longestNodeSuffix D (s.take (j + 1))).length with hd
  have hdle : d ≤ j + 1 := by
    have := lns_length_le D (s.take (j + 1))
    have hlen : (s.take (j + 1)).length = j + 1 := by
      rw [List.length_take]; omega
    omega
  have h1 : j + 1 - (j + 1 - d) = d := by omega
  rw [h1]
  have h2 : (s.take (j + 1)).drop ((s.take (j + 1)).length - d) =
      longestNodeSuffix D (s.take (j + 1)) := drop_of_sfx (lns_sfx D _)
  have hlen : (s.take (j + 1)).length = j + 1 := by
    rw [List.length_take]; omega
  rw [hlen] at h2
  rw [← h2, List.drop_take]
  congr 1
  omega

theorem lns_ne_nil_of_terminal {D : List Str} {t : Str}
    (hD : ∀ pat ∈ D, pat ≠ [])
    (hT : terminal D (longestNodeSuffix D t) = true) :
    longestNodeSuffix D t ≠ [] := by
  obtain ⟨pat, hm, hsfx⟩ := terminal_iff.mp hT
  intro hnil
  rw [hnil] at hsfx
  obtain ⟨u, hu⟩ := hsfx
  have hlen := congrArg List.length hu
  simp at hlen
  exact hD pat hm hlen.2

theorem build_ok_patterns {D : List Str} {a : Automaton} (h : build D = .ok a) :
    a.patterns = D ∧ ∀ pat ∈ D, pat ≠ [] := by
  unfold build at h
  by_cases hc : D.any List.isEmpty = true
  · rw [if_pos hc] at h; cases h
  · rw [if_neg hc] at h
    cases h
    refine ⟨rfl, ?_⟩
    intro pat hm hnil
    apply hc
    rw [List.any_eq_true]
    exact ⟨pat, hm, by simp [hnil]⟩

theorem match_shape (D : List Str) (s : Str) :
    Match D s = ⟨-1, -1⟩ ∨ ∃ b e : Nat, Match D s = ⟨(b : Int), (e : Int)⟩ := by
  unfold Match
  cases matchFrom D [] s 0 with
  | none => exact Or.inl rfl
  | some p => exact Or.inr ⟨p.1, p.2, rfl⟩

end AhoCorasick

namespace AhoCorasick

theorem acMatch_eq {D : List Str} {a : Automaton} (h : build D = .ok a) (s : Str) :
    acMatch a s = Match D s := by
  obtain ⟨hpat, _⟩ := build_ok_patterns h
  unfold acMatch
  rw [hpat]

/-- C1: for every dictionary `D` and input `s`, matching on the automaton
built from `D` returns the sentinel `(-1, -1)` iff no pattern of `D` occurs
as a contiguous substring of `s`. -/
theorem claim_C1_sentinel_iff_no_occurrence (D : List Str) (a : Automaton) (s : Str)
    (h : build D = .ok a) :
    acMatch a s = ⟨-1, -1⟩ ↔ ¬ ∃ pat ∈ D, pat <:+: s := by
  obtain ⟨_, hne⟩ := build_ok_patterns h
  rw [acMatch_eq h]
  rcases Match_spec D s with ⟨hm, hall⟩ | ⟨j, hj, hm, hT, _⟩
  · constructor
    · intro _
      rintro ⟨pat, hmem, hocc⟩
      obtain ⟨j, hj, hsfx⟩ := sfx_take_of_occ (hne pat hmem) hocc
      have hT := (terminal_lns_iff D (s.take (j + 1))).mpr ⟨pat, hmem, hsfx⟩
      rw [hall j hj] at hT
      exact Bool.noConfusion hT
    · intro _
      exact hm
  · constructor
    · intro hsent
      rw [hm] at hsent
      have := congrArg Match_Result.match_end hsent
      simp at this
    · intro hno
      exfalso
      apply hno
      obtain ⟨pat, hmem, hsfx⟩ := (terminal_lns_iff D (s.take (j + 1))).mp hT
      exact ⟨pat, hmem, occ_of_sfx_take hsfx⟩

/-- A witness for C1 at the dictionary `{[1]}` and input `[2]`. -/
theorem claim_C1_witness :
    build [[1]] = .ok ⟨[[1]]⟩ ∧
    (acMatch ⟨[[1]]⟩ [2] = ⟨-1, -1⟩ ↔ ¬ ∃ pat ∈ [[1]], pat <:+: ([2] : Str)) :=
  ⟨rfl, claim_C1_sentinel_iff_no_occurrence [[1]] ⟨[[1]]⟩ [2] rfl⟩

/-- C2 as frozen is refuted at the dictionary `{[1,2,3], [2]}` and input
`[1,2]`: the matcher returns the span `(0, 1)` whose substring `[1,2]` is
not equal to any pattern of the dictionary (the state reached is the trie
node `[1,2]`, terminal only because the pattern `[2]` is a suffix of it). -/
theorem claim_C2_counterexample :
    build [[1, 2, 3], [2]] = .ok ⟨[[1, 2, 3], [2]]⟩ ∧
    acMatch ⟨[[1, 2, 3], [2]]⟩ [1, 2] = ⟨0, 1⟩ ∧
    (([1, 2] : Str).drop 0).take (1 + 1 - 0) = [1, 2] ∧
    ([1, 2] : Str) ∉ [[1, 2, 3], [2]] :=
  ⟨rfl, by decide, by decide, by decide⟩

/-- C2, amended: when the match is a non-sentinel pair `(b, e)`, then
`0 ≤ b ≤ e < |s|`, some pattern of `D` is a suffix of the inclusive
substring `s[b..e]` (rather than the claimed equality of `s[b..e]` with a
pattern), and no pattern of `D` ends at any position strictly less than
`e`. -/
theorem claim_C2_amended (D : List Str) (a : Automaton) (s : Str)
    (h : build D = .ok a) (hnm : acMatch a s ≠ ⟨-1, -1⟩) :
    ∃ b e : Nat, acMatch a s = ⟨(b : Int), (e : Int)⟩ ∧ b ≤ e ∧ e < s.length ∧
      (∃ pat ∈ D, pat <:+ (s.drop b).take (e + 1 - b)) ∧
      ∀ e' < e, ¬ ∃ pat ∈ D, pat <:+ s.take (e' + 1) := by
  obtain ⟨_, hne⟩ := build_ok_patterns h
  rw [acMatch_eq h] at hnm ⊢
  rcases Match_spec D s with ⟨hm, _⟩ | ⟨j, hj, hm, hT, hprev⟩
  · exact absurd hm hnm
  · have hd1 : 1 ≤ (longestNodeSuffix D (s.take (j + 1))).length := by
      have := List.length_pos.mpr (lns_ne_nil_of_terminal hne hT)
      omega
    refine ⟨j + 1 - (longestNodeSuffix D (s.take (j + 1))).length, j, hm,
      by omega, hj, ?_, ?_⟩
    · rw [span_eq_lns hj]
      exact terminal_iff.mp hT
    · rintro e' he' ⟨pat, hmem, hsfx⟩
      have hT' := (terminal_lns_iff D (s.take (e' + 1))).mpr ⟨pat, hmem, hsfx⟩
      rw [hprev e' he'] at hT'
      exact Bool.noConfusion hT'

/-- A witness for the amended C2 at the dictionary `{[1]}` and input
`[1]`. -/
theorem claim_C2_witness :
    build [[1]] = .ok ⟨[[1]]⟩ ∧ acMatch ⟨[[1]]⟩ [1] ≠ ⟨-1, -1⟩ ∧
    ∃ b e : Nat, acMatch ⟨[[1]]⟩ [1] = ⟨(b : Int), (e : Int)⟩ ∧ b ≤ e ∧
      e < ([1] : Str).length ∧
      (∃ pat ∈ [[1]], pat <:+ (([1] : Str).drop b).take (e + 1 - b)) ∧
      ∀ e' < e, ¬ ∃ pat ∈ [[1]], pat <:+ ([1] : Str).take (e' + 1) :=
  ⟨rfl, by decide, claim_C2_amended [[1]] ⟨[[1]]⟩ [1] rfl (by decide)⟩

/-- C3 as frozen is refuted at the dictionary `{[2], [1,2,3]}` and input
`[1,2,3]`: the occurrence with the smallest starting index is `[1,2,3]` at
`(0, 2)` (and no pattern occurs at `(0, 1)`), yet the matcher returns
`(0, 1)` — it stops at the earliest *ending* occurrence (`[2]` at `(1,1)`)
and widens the begin to the depth of the reached trie node. -/
theorem claim_C3_counterexample :
    build [[2], [1, 2, 3]] = .ok ⟨[[2], [1, 2, 3]]⟩ ∧
    occursAt [[2], [1, 2, 3]] [1, 2, 3] 0 2 ∧
    acMatch ⟨[[2], [1, 2, 3]]⟩ [1, 2, 3] = ⟨0, 1⟩ ∧
    ¬ occursAt [[2], [1, 2, 3]] [1, 2, 3] 0 1 :=
  ⟨rfl, by decide, by decide, by decide⟩

/-- C3, amended: when some pattern of `D` occurs in `s`, the returned end
`e` is the smallest index at which any pattern occurrence of `D` ends in
`s`, and the returned begin is `e + 1 - ℓ` where `ℓ` is the length of the
longest suffix of `s[0..e]` that is a prefix of some pattern (the depth of
the terminal state), not necessarily the start of an occurrence. -/
theorem claim_C3_amended (D : List Str) (a : Automaton) (s : Str)
    (h : build D = .ok a) (hocc : ∃ pat ∈ D, pat <:+: s) :
    ∃ e : Nat, e < s.length ∧ (∃ pat ∈ D, pat <:+ s.take (e + 1)) ∧
      (∀ e' < e, ¬ ∃ pat ∈ D, pat <:+ s.take (e' + 1)) ∧
      acMatch a s =
        ⟨((e + 1 - (longestNodeSuffix D (s.take (e + 1))).length : Nat) : Int),
         (e : Int)⟩ := by
  obtain ⟨_, hne⟩ := build_ok_patterns h
  rw [acMatch_eq h]
  rcases Match_spec D s with ⟨_, hall⟩ | ⟨j, hj, hm, hT, hprev⟩
  · exfalso
    obtain ⟨pat, hmem, ho⟩ := hocc
    obtain ⟨j, hj, hsfx⟩ := sfx_take_of_occ (hne pat hmem) ho
    have hT := (terminal_lns_iff D (s.take (j + 1))).mpr ⟨pat, hmem, hsfx⟩
    rw [hall j hj] at hT
    exact Bool.noConfusion hT
  · refine ⟨j, hj, (terminal_lns_iff D (s.take (j + 1))).mp hT, ?_, hm⟩
    rintro e' he' ⟨pat, hmem, hsfx⟩
    have hT' := (terminal_lns_iff D (s.take (e' + 1))).mpr ⟨pat, hmem, hsfx⟩
    rw [hprev e' he'] at hT'
    exact Bool.noConfusion hT'

/-- A witness for the amended C3 at the dictionary `{[1]}` and input
`[2, 1]`. -/
theorem claim_C3_witness :
    build [[1]] = .ok ⟨[[1]]⟩ ∧ (∃ pat ∈ [[1]], pat <:+: ([2, 1] : Str)) ∧
    ∃ e : Nat, e < ([2, 1] : Str).length ∧
      (∃ pat ∈ [[1]], pat <:+ ([2, 1] : Str).take (e + 1)) ∧
      (∀ e' < e, ¬ ∃ pat ∈ [[1]], pat <:+ ([2, 1] : Str).take (e' + 1)) ∧
      acMatch ⟨[[1]]⟩ [2, 1] =
        ⟨((e + 1 - (longestNodeSuffix [[1]] (([2, 1] : Str).take (e + 1))).length : Nat) : Int),
         (e : Int)⟩ :=
  ⟨rfl, by decide, claim_C3_amended [[1]] ⟨[[1]]⟩ [2, 1] rfl (by decide)⟩

/-- C4: a state of the reference automaton is terminal iff some dictionary
pattern ends at that state or the state reached by its failure link is
terminal — the invariant established by the terminality-propagation step of
`Propagate_faillink`. -/
theorem claim_C4_terminal_propagation (D : List Str) (p : Str)
    (_hp : isNode D p = true) (hne : p ≠ []) :
    terminal D p = true ↔ (p ∈ D ∨ terminal D (fail D p) = true) := by
  constructor
  · intro hT
    obtain ⟨pat, hmem, hsfx⟩ := terminal_iff.mp hT
    by_cases heq : pat = p
    · subst heq
      exact Or.inl hmem
    · right
      cases p with
      | nil => exact absurd rfl hne
      | cons c t =>
        rcases sfx_cons_cases hsfx with hcon | hsfx'
        · exact absurd hcon heq
        · exact terminal_iff.mpr ⟨pat, hmem, sfx_lns hsfx' (isNode_of_mem hmem)⟩
  · rintro (hmem | hT)
    · exact terminal_iff.mpr ⟨p, hmem, ⟨[], rfl⟩⟩
    · obtain ⟨pat, hmem, hsfx⟩ := terminal_iff.mp hT
      exact terminal_iff.mpr ⟨pat, hmem, hsfx.trans (fail_sfx D p)⟩

/-- A witness for C4 at the dictionary `{[1,2]}` and the state `[1,2]`. -/
theorem claim_C4_witness :
    isNode [[1, 2]] [1, 2] = true ∧ ([1, 2] : Str) ≠ [] ∧
    (terminal [[1, 2]] [1, 2] = true ↔
      (([1, 2] : Str) ∈ [[1, 2]] ∨ terminal [[1, 2]] (fail [[1, 2]] [1, 2]) = true)) :=
  ⟨by decide, by decide, claim_C4_terminal_propagation [[1, 2]] [1, 2] (by decide) (by decide)⟩

end AhoCorasick

namespace AhoCorasick

/-- The C `ac_result_t` of `ac.h`: the pair of ints returned across the
foreign interface. -/
structure ac_result_t where
  match_begin : Int
  match_end : Int
deriving DecidableEq, Repr

/-- The handle header `ac_t` of `ac.h`: a magic byte and a variant tag. -/
structure ac_t where
  magic_num : Nat
  impl_variant : Nat
deriving DecidableEq, Repr

/-- The magic constant `AC_MAGIC_NUM` of `ac.h`. -/
def AC_MAGIC_NUM : Nat := 0x5a

/-- The slow-variant tag of `ac_util.hpp`. -/
def IMPL_SLOW_VARIANT : Nat := 1

/-- The fast-variant tag of `ac_util.hpp`. -/
def IMPL_FAST_VARIANT : Nat := 2

/-- The `ACS_Header` of the `USE_SLOW_VER` branch of `ac.cxx`: the `ac_t`
header together with the owned `ACS_Constructor`. -/
structure ACS_Header where
  ac : ac_t
  impl : Automaton
deriving DecidableEq

/-- Shallow embedding of the slow-variant `ac_create` of `ac.cxx`: construct
the reference automaton and wrap it behind a header carrying the magic byte
and the slow-variant tag (construction failures surface as the spec's build
errors, since `Construct` itself is not among the shipped sources). -/
def ac_create_slow (strv : List Str) : Except BuildError ACS_Header :=
  (build strv).map (fun acc => ⟨⟨AC_MAGIC_NUM, IMPL_SLOW_VARIANT⟩, acc⟩)

/-- The `ASSERT(ac->magic_num == AC_MAGIC_NUM)` executed, in debug builds,
on entry to `_match` and `ac_free` of `ac.cxx`. -/
def magic_assert (hdr : ACS_Header) : Bool :=
  hdr.ac.magic_num == AC_MAGIC_NUM

/-- Shallow embedding of the static `_match` of `ac.cxx`: run the
underlying matcher on the first `len` bytes of the input and copy the
`begin`/`end` fields of the `Match_Result` into an `ac_result_t`. -/
def acMatchImpl (hdr : ACS_Header) (s : Str) (len : Nat) : ac_result_t :=
  let mr := Match hdr.impl.patterns (s.take len)
  ⟨mr.match_begin, mr.match_end⟩

/-- Shallow embedding of `ac_match` of `ac.cxx`: it forwards to `_match`. -/
def ac_match (hdr : ACS_Header) (s : Str) (len : Nat) : ac_result_t :=
  acMatchImpl hdr s len

/-- Shallow embedding of `ac_match2` of `ac.cxx`: it forwards to `_match`
and keeps only the `match_begin` field. -/
def ac_match2 (hdr : ACS_Header) (s : Str) (len : Nat) : Int :=
  (acMatchImpl hdr s len).match_begin

/-- Shallow embedding of `strlen` on the byte-string representation of a
NUL-terminated C string: the number of bytes before the first zero byte. -/
def strlen (s : Str) : Nat :=
  (s.takeWhile (fun b => b != 0)).length

/-- Shallow embedding of the single-argument overload
`Match(const char* s) const { return Match(s, strlen(s)); }` of
`ac_slow.hpp` line 87. -/
def MatchCStr (D : List Str) (s : Str) : Match_Result :=
  Match D (s.take (strlen s))

end AhoCorasick

namespace AhoCorasick

/-- C6: a pattern list containing an empty pattern fails to build with
`InvalidPattern` and yields no automaton; more generally no build error
produces an automaton. -/
theorem claim_C6_empty_pattern_invalid (D : List Str) (hmem : [] ∈ D) :
    build D = .error .InvalidPattern ∧ (∀ a : Automaton, build D ≠ .ok a) ∧
    ∀ (D' : List Str) (e : BuildError) (a : Automaton),
      build D' = .error e → build D' ≠ .ok a := by
  have hc : D.any List.isEmpty = true := List.any_eq_true.mpr ⟨[], hmem, rfl⟩
  refine ⟨?_, ?_, ?_⟩
  · unfold build
    rw [if_pos hc]
  · intro a hcon
    unfold build at hcon
    rw [if_pos hc] at hcon
    cases hcon
  · intro D' e a herr hok
    rw [herr] at hok
    cases hok

/-- A witness for C6 at the pattern list `{[]}`. -/
theorem claim_C6_witness :
    ([] : Str) ∈ [([] : Str)] ∧
    (build [([] : Str)] = .error .InvalidPattern ∧
      (∀ a : Automaton, build [([] : Str)] ≠ .ok a) ∧
      ∀ (D' : List Str) (e : BuildError) (a : Automaton),
        build D' = .error e → build D' ≠ .ok a) :=
  ⟨by decide, claim_C6_empty_pattern_invalid [([] : Str)] (by decide)⟩

/-- C8: `ac_match2` returns exactly the `match_begin` field of `ac_match`,
and it is `-1` exactly when `ac_match` returns the sentinel `(-1, -1)`. -/
theorem claim_C8_match2_is_match_begin (hdr : ACS_Header) (s : Str) (len : Nat) :
    ac_match2 hdr s len = (ac_match hdr s len).match_begin ∧
    (ac_match2 hdr s len = -1 ↔ ac_match hdr s len = ⟨-1, -1⟩) := by
  refine ⟨rfl, ?_⟩
  unfold ac_match2 ac_match acMatchImpl
  rcases match_shape hdr.impl.patterns (s.take len) with hm | ⟨b, e, hm⟩
  · rw [hm]
    simp
  · rw [hm]
    simp only [ac_result_t.mk.injEq]
    omega

/-- C10: the single-argument `Match(s)` overload examines only the bytes
before the first zero byte — on a NUL-free prefix `a` it equals `Match`
over `a`, both when `s` is `a` followed by an embedded NUL and trailing
bytes and when `s` is `a` itself. -/
theorem claim_C10_cstring_truncation (D : List Str) (a bs : Str)
    (ha : ∀ x ∈ a, x ≠ 0) :
    MatchCStr D (a ++ 0 :: bs) = Match D a ∧ MatchCStr D a = Match D a := by
  have take_strlen_eq : ∀ t : Str, t.take (strlen t) = t.takeWhile (fun b => b != 0) := by
    intro t
    induction t with
    | nil => rfl
    | cons c t ih =>
      by_cases hc : (c != 0) = true
      · simp [strlen, List.takeWhile_cons, hc] at ih ⊢
        exact ih
      · simp [strlen, List.takeWhile_cons, hc]
  constructor
  · unfold MatchCStr
    rw [take_strlen_eq]
    congr 1
    induction a with
    | nil => simp
    | cons c t ih =>
      have hc : (c != 0) = true := by simpa using ha c (by simp)
      simp only [List.cons_append, List.takeWhile_cons, hc, if_true]
      rw [ih (fun x hx => ha x (by simp [hx]))]
  · unfold MatchCStr
    rw [take_strlen_eq]
    congr 1
    induction a with
    | nil => rfl
    | cons c t ih =>
      have hc : (c != 0) = true := by simpa using ha c (by simp)
      simp only [List.takeWhile_cons, hc, if_true]
      rw [ih (fun x hx => ha x (by simp [hx]))]

/-- A witness for C10 at the dictionary `{[2]}`, prefix `[1]` and trailing
bytes `[2]`. -/
theorem claim_C10_witness :
    (∀ x ∈ ([1] : Str), x ≠ 0) ∧
    (MatchCStr [[2]] ([1] ++ 0 :: [2]) = Match [[2]] [1] ∧
      MatchCStr [[2]] [1] = Match [[2]] [1]) :=
  ⟨by decide, claim_C10_cstring_truncation [[2]] [1] [2] (by decide)⟩

end AhoCorasick

namespace AhoCorasick

/-- Modelled from the spec: the state allocation order of `Construct` /
`Add_String` (section 4.1 steps 1-2) — the root first, then for each
pattern in input order, each nonempty prefix of the pattern in increasing
length, allocated when first encountered.  `addStates` walks one pattern. -/
def addStates (sts : List Str) (pat : Str) : List Str :=
  (List.range pat.length).foldl
    (fun acc k => if pat.take (k + 1) ∈ acc then acc else acc ++ [pat.take (k + 1)])
    sts

/-- Modelled from the spec: all states of the reference automaton in
allocation order; a state's stable numeric id is its position in this list
plus one (the root has id 1). -/
def allStates (D : List Str) : List Str :=
  D.foldl addStates [[]]

/-- Modelled from the spec: the id assigned to a reference state. -/
def idOf (sts : List Str) (p : Str) : Nat :=
  sts.indexOf p + 1

/-- Modelled from the spec: the sparse/dense fanout threshold of section
4.2 ("a value near 36-64 balances average lookup cost against space"); the
exact value is an implementation choice and is fixed here. -/
def DENSE_THRESHOLD : Nat := 48

/-- A 32-bit little-endian byte emission used by the packed encoding. -/
def write32 (n : Nat) : List Nat :=
  [n % 256, n / 256 % 256, n / 65536 % 256, n / 16777216 % 256]

/-- Rounding up to the 4-byte alignment unit of the packed layout. -/
def alignUp4 (n : Nat) : Nat :=
  (n + 3) / 4 * 4

/-- Modelled from the spec: the outgoing transition bytes of a state, in
ascending order (section 4.2: "sparse transitions are emitted with input
bytes sorted ascending"). -/
def gotoBytes (D : List Str) (p : Str) : List Nat :=
  (List.range 256).filter (fun b => isNode D (p ++ [b]))

/-- Modelled from the spec: the byte size of one packed state record
(section 4.2 pass 1) — a fixed 8-byte record header (terminal flag, kind
discriminator, padding, 4-byte failure offset), then either a 256-entry
dense table or a count byte, the sorted input bytes, padding to alignment
and the child offsets; the total is aligned to 4 bytes. -/
def recordSize (D : List Str) (p : Str) : Nat :=
  let k := (gotoBytes D p).length
  if DENSE_THRESHOLD ≤ k then 8 + 256 * 4
  else alignUp4 (8 + 1 + k) + 4 * k

/-- Modelled from the spec: the size of the fixed buffer header (magic,
variant, padding, 4-byte root offset, 4-byte buffer length, padding). -/
def HEADER_SIZE : Nat := 16

/-- Modelled from the spec: pass 1 of the conversion — traverse states in
id order and assign each its byte offset after the header. -/
def stateOffsets (D : List Str) : List (Str × Nat) :=
  ((allStates D).foldl
    (fun (acc : List (Str × Nat) × Nat) p =>
      (acc.1 ++ [(p, acc.2)], acc.2 + recordSize D p))
    ([], HEADER_SIZE)).1

/-- Modelled from the spec: the id-to-offset translation used when emitting
failure links and child pointers. -/
def offsetOf (D : List Str) (p : Str) : Nat :=
  match (stateOffsets D).lookup p with
  | some o => o
  | none => 0

/-- Modelled from the spec: the total packed buffer length. -/
def bufLen (D : List Str) : Nat :=
  HEADER_SIZE + ((allStates D).map (recordSize D)).foldr (· + ·) 0

/-- Modelled from the spec: pass 2 of the conversion for one state — emit
the terminal flag, the encoding-kind discriminator, the failure-link
offset, and the transitions (dense: a 256-entry child-offset table with
zero meaning absent; sparse: the count, the sorted input bytes, alignment
padding, and the child offsets). -/
def emitState (D : List Str) (p : Str) : List Nat :=
  let k := (gotoBytes D p).length
  let base := [(if terminal D p then 1 else 0), (if DENSE_THRESHOLD ≤ k then 1 else 0), 0, 0]
    ++ write32 (offsetOf D (fail D p))
  if DENSE_THRESHOLD ≤ k then
    base ++ (List.range 256).foldr
      (fun b acc =>
        (if isNode D (p ++ [b]) then write32 (offsetOf D (p ++ [b])) else write32 0) ++ acc)
      []
  else
    base ++ [k] ++ gotoBytes D p ++ List.replicate (alignUp4 (8 + 1 + k) - (8 + 1 + k)) 0
      ++ (gotoBytes D p).foldr (fun b acc => write32 (offsetOf D (p ++ [b])) ++ acc) []

/-- Modelled from the spec: the packed buffer — the fixed header (magic
byte `0x5A`, fast-variant tag, padding, root offset, buffer length,
padding) followed by the packed state records in id order. -/
def pack (D : List Str) : List Nat :=
  AC_MAGIC_NUM :: IMPL_FAST_VARIANT :: 0 :: 0 ::
    (write32 (offsetOf D []) ++ write32 (bufLen D) ++ [0, 0, 0, 0] ++
      (allStates D).foldr (fun p acc => emitState D p ++ acc) [])

/-- Modelled from the spec: the fast-variant `ac_create` of `ac.cxx` —
build the reference automaton, convert it, and hand out the packed buffer
(whose leading bytes are the `ac_t` header). -/
def ac_create_fast (strv : List Str) : Except BuildError (List Nat) :=
  (build strv).map (fun _ => pack strv)

/-- The goto-map representation invariant of `std::map<InputTy, ACS_State*>`:
the association list of (input byte, successor) entries is strictly sorted
by key. -/
def GotoMapWF (m : List (Nat × Nat)) : Prop :=
  List.Chain' (fun x y => x.1 < y.1) m

instance (m : List (Nat × Nat)) : Decidable (GotoMapWF m) :=
  inferInstanceAs (Decidable (List.Chain' (fun x y : Nat × Nat => x.1 < y.1) m))

/-- One insertion of the sort applied by `Get_Sorted_Gotos` (the `GotoSort`
comparator orders pairs by `first`, the input byte). -/
def insPair (x : Nat × Nat) : List (Nat × Nat) → List (Nat × Nat)
  | [] => [x]
  | y :: t => if x.1 < y.1 then x :: y :: t else y :: insPair x t

/-- The sort applied by `Get_Sorted_Gotos` — a sort by the `GotoSort`
comparator (`g1.first < g2.first`), embedded as insertion sort. -/
def sortGotos : List (Nat × Nat) → List (Nat × Nat)
  | [] => []
  | x :: t => insPair x (sortGotos t)

/-- Shallow embedding of `ACS_State::Get_Sorted_Gotos` (`ac_slow.hpp` lines
52-61): the output vector is cleared, the map's entries are copied in map
iteration order (for the sorted association list, the list itself), and the
result is sorted with `GotoSort`.  The prior contents of `gotos` are
discarded by `Gotos.clear()`. -/
def Get_Sorted_Gotos (m : List (Nat × Nat)) (_gotos : List (Nat × Nat)) :
    List (Nat × Nat) :=
  sortGotos m

end AhoCorasick

namespace AhoCorasick

/-- C5: build is deterministic — equal dictionaries (as ordered sequences)
yield the same allocation-order state list (hence the same state ids) and
byte-identical packed buffers.  In the functional embedding every stage of
the pipeline is a function of the dictionary alone, so determinism is
congruence. -/
theorem claim_C5_build_deterministic (D1 D2 : List Str) (h : D1 = D2) :
    allStates D1 = allStates D2 ∧ pack D1 = pack D2 ∧
    ac_create_fast D1 = ac_create_fast D2 := by
  subst h
  exact ⟨rfl, rfl, rfl⟩

/-- A witness for C5 at the dictionary `{[1]}`. -/
theorem claim_C5_witness :
    ([[1]] : List Str) = [[1]] ∧
    (allStates [[1]] = allStates [[1]] ∧ pack [[1]] = pack [[1]] ∧
      ac_create_fast [[1]] = ac_create_fast [[1]]) :=
  ⟨rfl, claim_C5_build_deterministic [[1]] [[1]] rfl⟩

/-- C7: every handle produced by `ac_create` carries the magic byte `0x5A`
at offset 0 followed by the variant tag — 1 (`IMPL_SLOW_VARIANT`) for the
reference implementation, 2 (`IMPL_FAST_VARIANT`) for the packed buffer —
and the `ASSERT(ac->magic_num == AC_MAGIC_NUM)` checks performed by
`_match` and `ac_free` hold on it.  Handles are immutable values of the
embedding, so the leading byte cannot change during the handle's
lifetime. -/
theorem claim_C7_handle_magic (strv : List Str) (hdr : ACS_Header) (buf : List Nat)
    (hs : ac_create_slow strv = .ok hdr) (hf : ac_create_fast strv = .ok buf) :
    hdr.ac.magic_num = AC_MAGIC_NUM ∧ hdr.ac.impl_variant = IMPL_SLOW_VARIANT ∧
    magic_assert hdr = true ∧
    buf.head? = some AC_MAGIC_NUM ∧ buf[1]? = some IMPL_FAST_VARIANT ∧
    IMPL_SLOW_VARIANT = 1 ∧ IMPL_FAST_VARIANT = 2 := by
  unfold ac_create_slow at hs
  unfold ac_create_fast at hf
  cases hb : build strv with
  | error e =>
    rw [hb] at hs
    cases hs
  | ok acc =>
    rw [hb] at hs hf
    cases hs
    cases hf
    exact ⟨rfl, rfl, rfl, rfl, rfl, rfl, rfl⟩

/-- A witness for C7 at the dictionary `{[1]}`. -/
theorem claim_C7_witness :
    ac_create_slow [[1]] = .ok ⟨⟨AC_MAGIC_NUM, IMPL_SLOW_VARIANT⟩, ⟨[[1]]⟩⟩ ∧
    ac_create_fast [[1]] = .ok (pack [[1]]) ∧
    (⟨⟨AC_MAGIC_NUM, IMPL_SLOW_VARIANT⟩, ⟨[[1]]⟩⟩ : ACS_Header).ac.magic_num = AC_MAGIC_NUM ∧
    magic_assert ⟨⟨AC_MAGIC_NUM, IMPL_SLOW_VARIANT⟩, ⟨[[1]]⟩⟩ = true ∧
    (pack [[1]]).head? = some AC_MAGIC_NUM ∧
    (pack [[1]])[1]? = some IMPL_FAST_VARIANT :=
  ⟨rfl, rfl,
    (claim_C7_handle_magic [[1]] _ _ rfl rfl).1,
    (claim_C7_handle_magic [[1]] _ _ rfl rfl).2.2.1,
    (claim_C7_handle_magic [[1]] _ _ rfl rfl).2.2.2.1,
    (claim_C7_handle_magic [[1]] _ _ rfl rfl).2.2.2.2.1⟩

theorem sortGotos_eq_self {m : List (Nat × Nat)} (h : GotoMapWF m) :
    sortGotos m = m := by
  induction m with
  | nil => rfl
  | cons y t ih =>
    cases t with
    | nil => rfl
    | cons z t' =>
      have hh := List.chain'_cons.mp h
      have ih' := ih hh.2
      show insPair y (sortGotos (z :: t')) = y :: z :: t'
      rw [ih']
      show insPair y (z :: t') = y :: z :: t'
      simp [insPair, hh.1]

/-- C9: for a goto map satisfying the `std::map` representation invariant,
`Get_Sorted_Gotos` fills the output vector with exactly the state's
transition pairs — one pair per outgoing edge, each carrying the input byte
and its successor — in strictly ascending order of input byte, regardless
of the vector's prior contents. -/
theorem claim_C9_sorted_gotos (m gotos : List (Nat × Nat)) (h : GotoMapWF m) :
    Get_Sorted_Gotos m gotos = m ∧
    List.Chain' (fun x y => x.1 < y.1) (Get_Sorted_Gotos m gotos) ∧
    ∀ gotos', Get_Sorted_Gotos m gotos = Get_Sorted_Gotos m gotos' := by
  have he : Get_Sorted_Gotos m gotos = m := sortGotos_eq_self h
  exact ⟨he, by rw [he]; exact h, fun _ => rfl⟩

/-- A witness for C9 at the two-transition map `{1 ↦ 10, 3 ↦ 30}` and a
nonempty prior vector. -/
theorem claim_C9_witness :
    GotoMapWF [(1, 10), (3, 30)] ∧
    (Get_Sorted_Gotos [(1, 10), (3, 30)] [(9, 9)] = [(1, 10), (3, 30)] ∧
      List.Chain' (fun x y => x.1 < y.1) (Get_Sorted_Gotos [(1, 10), (3, 30)] [(9, 9)]) ∧
      ∀ gotos', Get_Sorted_Gotos [(1, 10), (3, 30)] [(9, 9)] =
        Get_Sorted_Gotos [(1, 10), (3, 30)] gotos') :=
  ⟨List.Chain.cons (by decide) List.Chain.nil,
    claim_C9_sorted_gotos [(1, 10), (3, 30)] [(9, 9)]
      (List.Chain.cons (by decide) List.Chain.nil)⟩

end AhoCorasick
